import Mathlib

/-!
Shallow embedding of the tech-glossary application core (src/glossary.js):
the term store, the filter engine, the navigation history and the
navigation controller of the TechGlossary class.  Strings are modelled by
Lean `String`; JavaScript `toLowerCase` is modelled character-wise.  The
browser's JSON library (external to the repository) is assumed to
round-trip an array of strings exactly, so the sessionStorage slot
`glossary-navigation-history` is modelled as `Option (List String)`
(`none` = key absent, `some l` = key holds the serialization of `l`).
DOM reads and writes (rendering, scrolling, highlight timers) have no
effect on the modelled state and are omitted.
-/

namespace Glossary

/-- Character-wise lowercasing, modelling `String.prototype.toLowerCase`
as used on ASCII data in glossary.js. -/
def jsToLower (s : String) : String := ⟨s.data.map Char.toLower⟩

/-- Decides whether the first list is a prefix of the second. -/
def isPrefixB : List Char → List Char → Bool
  | [], _ => true
  | _ :: _, [] => false
  | a :: as, b :: bs => a == b && isPrefixB as bs

/-- Decides whether `needle` occurs contiguously inside the second list,
modelling `String.prototype.includes`. -/
def includesB (needle : List Char) : List Char → Bool
  | [] => needle.isEmpty
  | c :: cs => isPrefixB needle (c :: cs) || includesB needle cs

/-- JavaScript `hay.includes(needle)` on strings. -/
def strIncludes (hay needle : String) : Bool := includesB needle.data hay.data

/-- The specification-side notion of a contiguous substring: `needle`
occurs inside `hay`. -/
def SubstringOf (needle hay : List Char) : Prop :=
  ∃ pre suf, hay = pre ++ needle ++ suf

/-- A glossary term (the GlossaryTerm typedef, glossary.js lines 7-16). -/
structure Term where
  id : String
  term : String
  fullForm : Option String
  definition : String
  category : String
  relatedTerms : List String
  examples : List String
deriving DecidableEq, Repr

/-- The loaded dataset (the GlossaryData typedef, glossary.js lines 18-22). -/
structure GlossaryData where
  terms : List Term
  categories : List String
deriving DecidableEq, Repr

/-- The mutable state of a TechGlossary instance (constructor, lines
28-49), restricted to the fields the core manipulates, together with the
sessionStorage slot the instance reads and writes. -/
structure AppState where
  data : Option GlossaryData
  filteredTerms : List Term
  currentCategory : String
  searchQuery : String
  navigationHistory : List String
  storage : Option (List String)
deriving DecidableEq, Repr

/-- initializeHistory (glossary.js lines 92-102): if the sessionStorage
key is present, replace the in-memory trail by the parsed value;
otherwise (or on a parse failure, which the abstract storage model cannot
produce) the trail is left as it was. -/
def initHistory (s : AppState) : AppState :=
  match s.storage with
  | some l => { s with navigationHistory := l }
  | none => s

/-- saveHistory (lines 107-113): write the serialized trail to
sessionStorage. -/
def saveHistory (s : AppState) : AppState :=
  { s with storage := some s.navigationHistory }

/-- addToHistory (lines 119-129): skip a duplicate consecutive entry,
otherwise push the id and persist.  The JavaScript guard
`length > 0 && history[length-1] === termId` is exactly
`getLast? = some termId`. -/
def addToHistory (s : AppState) (termId : String) : AppState :=
  if s.navigationHistory.getLast? = some termId then s
  else saveHistory { s with navigationHistory := s.navigationHistory ++ [termId] }

/-- clearHistory (lines 134-138): empty the trail and persist. -/
def clearHistory (s : AppState) : AppState :=
  saveHistory { s with navigationHistory := [] }

/-- Index of the first occurrence of `x`, modelling
`Array.prototype.indexOf` (`none` stands for -1). -/
def indexOfFirst (x : String) : List String → Option Nat
  | [] => none
  | y :: ys => if y = x then some 0 else (indexOfFirst x ys).map (· + 1)

/-- The breadcrumb truncation of navigateToTerm (lines 155-160): keep the
trail up to and including the first occurrence of `termId`; leave it
unchanged when `termId` does not occur (indexOf returns -1). -/
def truncateHistory (history : List String) (termId : String) : List String :=
  match indexOfFirst termId history with
  | some i => history.take (i + 1)
  | none => history

/-- The predicate of the search filter (lines 321-325): the stored query
occurs in the lowercased name, or in the lowercased definition, or — when
fullForm is truthy, i.e. neither null nor empty — in the lowercased
full form. -/
def termMatchesQuery (sq : String) (t : Term) : Bool :=
  strIncludes (jsToLower t.term) sq ||
  strIncludes (jsToLower t.definition) sq ||
  (match t.fullForm with
   | some f => decide (f ≠ "") && strIncludes (jsToLower f) sq
   | none => false)

/-- filterTerms (lines 309-329): empty list before the data has loaded;
otherwise restrict to the current category unless it is the sentinel
"all", then restrict by the search query unless it is empty. -/
def filterTerms (s : AppState) : List Term :=
  match s.data with
  | none => []
  | some d =>
    let filtered :=
      if s.currentCategory ≠ "all" then
        d.terms.filter (fun t => decide (t.category = s.currentCategory))
      else d.terms
    if s.searchQuery ≠ "" then filtered.filter (termMatchesQuery s.searchQuery)
    else filtered

/-- findTermIdByName (lines 400-407): case-insensitive exact match of the
term name, returning the id of the first match. -/
def findTermIdByName (s : AppState) (termName : String) : Option String :=
  match s.data with
  | none => none
  | some d =>
    match d.terms.find? (fun t => decide (jsToLower t.term = jsToLower termName)) with
    | some t => some t.id
    | none => none

/-- The history update of navigateToTerm (lines 154-164): a breadcrumb
click truncates the trail after the clicked id and persists (nothing
happens when indexOf returns -1); any other navigation appends. -/
def navHistoryStep (s : AppState) (termId : String) (fromBreadcrumb : Bool) : AppState :=
  if fromBreadcrumb then
    match indexOfFirst termId s.navigationHistory with
    | some i =>
        saveHistory { s with navigationHistory := s.navigationHistory.take (i + 1) }
    | none => s
  else addToHistory s termId

/-- navigateToTerm (lines 145-184): return unchanged when the data is not
loaded or the id does not resolve; otherwise truncate the trail (from a
breadcrumb click) or append to it, then clear the search query, reset the
category to "all" and recompute the filtered view.  Rendering, scrolling
and the highlight timer touch only the DOM and are omitted. -/
def navigateToTerm (s : AppState) (termId : String) (fromBreadcrumb : Bool) : AppState :=
  match s.data with
  | none => s
  | some d =>
    match d.terms.find? (fun t => decide (t.id = termId)) with
    | none => s
    | some _ =>
      let s2 : AppState :=
        { navHistoryStep s termId fromBreadcrumb with
          searchQuery := "", currentCategory := "all" }
      { s2 with filteredTerms := filterTerms s2 }

/-- Result of one breadcrumb lookup in renderBreadcrumb (lines 491-496):
the JavaScript callback returns null when the data is not loaded, and
`Array.prototype.find` yields undefined when no term has the id.  The
two falsy values behave differently under the filter `term !== null`,
so the embedding keeps them distinct. -/
inductive LookupResult where
  | null
  | undefined
  | found (t : Term)
deriving DecidableEq, Repr

/-- One entry of the breadcrumb display-list computation (lines 492-495). -/
def breadcrumbLookup (s : AppState) (termId : String) : LookupResult :=
  match s.data with
  | none => LookupResult.null
  | some d =>
    match d.terms.find? (fun t => decide (t.id = termId)) with
    | some t => LookupResult.found t
    | none => LookupResult.undefined

/-- The breadcrumb display list of renderBreadcrumb (lines 491-496): map
each history id through the store and drop exactly the entries that are
null (the filter `term !== null` does not drop undefined). -/
def breadcrumbTerms (s : AppState) : List LookupResult :=
  (s.navigationHistory.map (breadcrumbLookup s)).filter
    (fun r => decide (r ≠ LookupResult.null))

/-- The spec-side filter engine filter(dataset, category, query): the
search input is lowercased at the moment it is stored (line 218,
`this.searchQuery = e.target.value.toLowerCase()`) and filterTerms then
reads the stored state. -/
def filterEngine (d : GlossaryData) (category query : String) : List Term :=
  filterTerms
    { data := some d, filteredTerms := [], currentCategory := category,
      searchQuery := jsToLower query, navigationHistory := [], storage := none }

/-- The operations that produce a navigation-history state. -/
inductive HistOp where
  | restore
  | append (id : String)
  | navigate (id : String) (fromBreadcrumb : Bool)
  | clear
deriving DecidableEq, Repr

/-- Apply one history-producing operation to the state. -/
def applyOp (s : AppState) : HistOp → AppState
  | HistOp.restore => initHistory s
  | HistOp.append id => addToHistory s id
  | HistOp.navigate id b => navigateToTerm s id b
  | HistOp.clear => clearHistory s

/-- Apply a sequence of operations from left to right. -/
def applyOps (s : AppState) : List HistOp → AppState
  | [] => s
  | op :: ops => applyOps (applyOp s op) ops

/-- A fresh instance right after the constructor ran (lines 28-49):
empty filters view, category "all", empty query, empty trail; `d` is the
dataset the instance will see, `st` the pre-existing sessionStorage value. -/
def initialState (d : Option GlossaryData) (st : Option (List String)) : AppState :=
  { data := d, filteredTerms := [], currentCategory := "all", searchQuery := "",
    navigationHistory := [], storage := st }

/-- Decides that a list has no two equal adjacent entries. -/
def noAdjDup : List String → Bool
  | a :: b :: rest => decide (a ≠ b) && noAdjDup (b :: rest)
  | _ => true

/-- The no-adjacent-duplicates invariant over the full state: it holds of
the in-memory trail and of any persisted trail. -/
abbrev HistInv (s : AppState) : Prop :=
  noAdjDup s.navigationHistory = true ∧ s.storage.all noAdjDup = true

/-- The persistence invariant: the storage mirrors the in-memory trail
(an absent key only ever coexists with the empty trail). -/
abbrev PersistInv (s : AppState) : Prop :=
  match s.storage with
  | some l => l = s.navigationHistory
  | none => s.navigationHistory = []

/-- The specification-side match predicate of claim C1: the query is a
case-insensitive substring of the term name, or of the definition, or of
the full-form expansion, the full-form check being skipped when fullForm
is null. -/
def ciMatches (q : String) (t : Term) : Prop :=
  SubstringOf (jsToLower q).data (jsToLower t.term).data ∨
  SubstringOf (jsToLower q).data (jsToLower t.definition).data ∨
  ∃ f, t.fullForm = some f ∧ SubstringOf (jsToLower q).data (jsToLower f).data

/-- First term of the test-suite fixture
(src/tests/glossary.test.js lines 13-21). -/
def apiTerm : Term :=
  { id := "api", term := "API",
    fullForm := some "Application Programming Interface",
    definition := "A set of protocols for building software applications",
    category := "Architecture",
    relatedTerms := ["REST", "GraphQL"],
    examples := ["REST API", "GraphQL API"] }

/-- Second term of the test-suite fixture (lines 22-30). -/
def cicdTerm : Term :=
  { id := "ci-cd", term := "CI/CD",
    fullForm := some "Continuous Integration/Continuous Deployment",
    definition := "Automated software development practices",
    category := "DevOps",
    relatedTerms := ["Jenkins", "GitHub Actions"],
    examples := ["Automated testing", "Automated deployment"] }

/-- Third term of the test-suite fixture (lines 31-39). -/
def dockerTerm : Term :=
  { id := "docker", term := "Docker",
    fullForm := none,
    definition := "A platform for developing, shipping, and running applications in containers",
    category := "DevOps",
    relatedTerms := ["Kubernetes", "Container"],
    examples := ["Docker Compose", "Dockerfile"] }

/-- Fourth term of the test-suite fixture (lines 40-48). -/
def restTerm : Term :=
  { id := "rest", term := "REST",
    fullForm := some "Representational State Transfer",
    definition := "An architectural style for distributed systems",
    category := "Architecture",
    relatedTerms := ["API", "HTTP"],
    examples := ["RESTful API", "REST endpoints"] }

/-- The four-term dataset of the test suite
(src/tests/glossary.test.js lines 11-51). -/
def fixture : GlossaryData :=
  { terms := [apiTerm, cicdTerm, dockerTerm, restTerm],
    categories := ["Architecture", "DevOps", "Security"] }

/-- A loaded state over the fixture whose trail holds one resolving id
and one dangling id. -/
def danglingState : AppState :=
  { data := some fixture, filteredTerms := [], currentCategory := "all",
    searchQuery := "", navigationHistory := ["api", "ghost"],
    storage := some ["api", "ghost"] }

/-- A loaded state over the fixture with a four-entry trail, used to
instantiate the universal theorems at concrete inputs. -/
def trailState : AppState :=
  { data := some fixture, filteredTerms := [], currentCategory := "DevOps",
    searchQuery := "docker", navigationHistory := ["api", "rest", "docker", "ci-cd"],
    storage := some ["api", "rest", "docker", "ci-cd"] }

/-- The character data of a lowercased string. -/
theorem jsToLower_data (s : String) : (jsToLower s).data = s.data.map Char.toLower := rfl

/-- Lowercasing yields the empty string exactly on the empty string. -/
theorem jsToLower_eq_empty_iff (s : String) : jsToLower s = "" ↔ s = "" := by
  cases s with
  | mk l =>
    cases l with
    | nil => exact Iff.rfl
    | cons c cs =>
      constructor
      · intro h
        have hd := congrArg String.data h
        simp [jsToLower] at hd
      · intro h
        have hd := congrArg String.data h
        simp at hd

/-- The boolean prefix test agrees with the existence of a suffix. -/
theorem isPrefixB_iff (n : List Char) : ∀ h : List Char,
    isPrefixB n h = true ↔ ∃ suf, h = n ++ suf := by
  induction n with
  | nil => intro h; simp [isPrefixB]
  | cons a as ih =>
    intro h
    cases h with
    | nil =>
      simp only [isPrefixB, List.cons_append]
      constructor
      · intro hfalse; cases hfalse
      · rintro ⟨suf, hs⟩; cases hs
    | cons b bs =>
      simp only [isPrefixB, Bool.and_eq_true, beq_iff_eq, ih bs, List.cons_append,
        List.cons.injEq]
      constructor
      · rintro ⟨hab, suf, hs⟩; exact ⟨suf, hab.symm, hs⟩
      · rintro ⟨suf, hba, hs⟩; exact ⟨hba.symm, suf, hs⟩

/-- A substring of the empty list is empty. -/
theorem substringOf_nil (n : List Char) : SubstringOf n [] ↔ n = [] := by
  constructor
  · rintro ⟨pre, suf, hh⟩
    rcases List.append_eq_nil.mp hh.symm with ⟨h1, -⟩
    exact (List.append_eq_nil.mp h1).2
  · rintro rfl; exact ⟨[], [], rfl⟩

/-- Unfolding a substring occurrence at a cons cell: the needle is a
prefix here or occurs further right. -/
theorem substringOf_cons (n : List Char) (c : Char) (cs : List Char) :
    SubstringOf n (c :: cs) ↔ (∃ suf, c :: cs = n ++ suf) ∨ SubstringOf n cs := by
  constructor
  · rintro ⟨pre, suf, hh⟩
    cases pre with
    | nil => exact Or.inl ⟨suf, by simpa using hh⟩
    | cons p ps =>
      simp only [List.cons_append, List.cons.injEq] at hh
      exact Or.inr ⟨ps, suf, hh.2⟩
  · rintro (⟨suf, hs⟩ | ⟨pre, suf, hh⟩)
    · exact ⟨[], suf, by simpa using hs⟩
    · exact ⟨c :: pre, suf, by simp [hh]⟩

/-- The boolean contiguous-occurrence test agrees with `SubstringOf`. -/
theorem includesB_iff (n : List Char) : ∀ h : List Char,
    includesB n h = true ↔ SubstringOf n h := by
  intro h
  induction h with
  | nil =>
    constructor
    · intro hn
      have hne : n = [] := by simpa [includesB] using hn
      exact ⟨[], [], by simp [hne]⟩
    · intro hs
      simpa [includesB] using (substringOf_nil n).mp hs
  | cons c cs ih =>
    simp only [includesB, Bool.or_eq_true, ih, isPrefixB_iff, substringOf_cons]

/-- The string-level occurrence test agrees with `SubstringOf` on the
character data. -/
theorem strIncludes_iff (hay needle : String) :
    strIncludes hay needle = true ↔ SubstringOf needle.data hay.data :=
  includesB_iff needle.data hay.data

/-- On a non-empty query, the code's match predicate applied to the
stored (lowercased) query agrees with the case-insensitive substring
predicate of the specification; the truthiness guard on fullForm is
redundant because a non-empty query never occurs in an empty string. -/
theorem termMatchesQuery_iff (q : String) (t : Term) (hq : q ≠ "") :
    termMatchesQuery (jsToLower q) t = true ↔ ciMatches q t := by
  have hqd : (jsToLower q).data ≠ [] := by
    rw [jsToLower_data]
    intro hd
    have hqnil : q.data = [] := List.map_eq_nil_iff.mp hd
    apply hq
    cases q with
    | mk l =>
      have hl : l = [] := hqnil
      rw [hl]
  unfold termMatchesQuery ciMatches
  cases hf : t.fullForm with
  | none => simp [strIncludes_iff, or_assoc]
  | some f =>
    by_cases hfe : f = ""
    · subst hfe
      simp only [Bool.or_eq_true, Bool.and_eq_true, decide_eq_true_eq, strIncludes_iff,
        Option.some.injEq, ne_eq, not_true_eq_false, false_and, or_false]
      constructor
      · rintro (h1 | h2)
        · exact Or.inl h1
        · exact Or.inr (Or.inl h2)
      · rintro (h1 | h2 | ⟨f2, heq, hsub⟩)
        · exact Or.inl h1
        · exact Or.inr h2
        · rw [← heq] at hsub
          exact absurd ((substringOf_nil _).mp hsub) hqd
    · simp only [Bool.or_eq_true, Bool.and_eq_true, decide_eq_true_eq, strIncludes_iff,
        Option.some.injEq, ne_eq]
      constructor
      · rintro ((h1 | h2) | ⟨-, h3⟩)
        · exact Or.inl h1
        · exact Or.inr (Or.inl h2)
        · exact Or.inr (Or.inr ⟨f, rfl, h3⟩)
      · rintro (h1 | h2 | ⟨f2, heq, hsub⟩)
        · exact Or.inl (Or.inl h1)
        · exact Or.inl (Or.inr h2)
        · rw [← heq] at hsub
          exact Or.inr ⟨hfe, hsub⟩

/-- C1: for every dataset D and query string q, the filter engine under
the sentinel category "all" returns exactly the terms of D for which q is
a case-insensitive contiguous substring of the name, or of the
definition, or of the full-form expansion (the full-form check being
skipped when fullForm is null): membership in the result is equivalent to
membership in D together with the match predicate, so every excluded term
matches in none of the three fields. -/
theorem filterEngine_all_query_iff (d : GlossaryData) (q : String) (t : Term) :
    t ∈ filterEngine d "all" q ↔ t ∈ d.terms ∧ ciMatches q t := by
  unfold filterEngine filterTerms
  simp only [ne_eq, not_true_eq_false, if_false, ite_not]
  by_cases hq : q = ""
  · subst hq
    have : jsToLower "" = "" := rfl
    rw [this]
    simp only [if_pos rfl]
    constructor
    · intro ht
      refine ⟨ht, Or.inl ⟨[], (jsToLower t.term).data, ?_⟩⟩
      simp [jsToLower]
    · exact fun h => h.1
  · rw [if_neg (fun h => hq ((jsToLower_eq_empty_iff q).mp h))]
    rw [List.mem_filter]
    exact and_congr_right fun _ => termMatchesQuery_iff q t hq
/-- C2: for every dataset D and category c, filtering with an empty
search query returns exactly the subset of D.terms whose category field
equals c when c is not "all" and all of D.terms when c is "all", and in
both cases the result is a sublist of D.terms, so the relative order of
D.terms is preserved. -/
theorem filterEngine_empty_query_spec (d : GlossaryData) (c : String) :
    filterEngine d c "" =
      (if c = "all" then d.terms
       else d.terms.filter (fun t => decide (t.category = c))) ∧
    List.Sublist (filterEngine d c "") d.terms ∧
    (c ≠ "all" → ∀ t, t ∈ filterEngine d c "" ↔ t ∈ d.terms ∧ t.category = c) ∧
    (c = "all" → filterEngine d c "" = d.terms) := by
  have hmain : filterEngine d c "" =
      (if c = "all" then d.terms
       else d.terms.filter (fun t => decide (t.category = c))) := by
    have h0 : jsToLower "" = "" := rfl
    by_cases hc : c = "all"
    · subst hc
      simp [filterEngine, filterTerms, h0]
    · simp [filterEngine, filterTerms, h0, hc]
  refine ⟨hmain, ?_, ?_, ?_⟩
  · rw [hmain]
    by_cases hc : c = "all"
    · rw [if_pos hc]
    · rw [if_neg hc]
      exact List.filter_sublist _
  · intro hc t
    rw [hmain, if_neg hc, List.mem_filter]
    simp
  · intro hc
    rw [hmain, if_pos hc]

/-- Instance of C2 at the test-suite fixture and the category "DevOps". -/
theorem filterEngine_empty_query_witness :
    ∀ t, t ∈ filterEngine fixture "DevOps" "" ↔ t ∈ fixture.terms ∧ t.category = "DevOps" :=
  (filterEngine_empty_query_spec fixture "DevOps").2.2.1 (by decide)

/-- C6: navigating to an id that does not resolve in the loaded store
changes no state at all, for either value of the breadcrumb flag: the
history, its persisted mirror, the category and the search query are
exactly what they were. -/
theorem navigateToTerm_miss_noop (s : AppState) (d : GlossaryData) (id : String) (b : Bool)
    (hd : s.data = some d) (hmiss : ∀ t ∈ d.terms, t.id ≠ id) :
    navigateToTerm s id b = s := by
  have hfind : d.terms.find? (fun t => decide (t.id = id)) = none := by
    rw [List.find?_eq_none]
    intro t ht
    simpa using hmiss t ht
  simp [navigateToTerm, hd, hfind]

/-- Instance of C6: navigating to the dangling id "ghost" leaves the
state untouched. -/
theorem navigateToTerm_miss_witness :
    navigateToTerm danglingState "ghost" true = danglingState :=
  navigateToTerm_miss_noop danglingState fixture "ghost" true rfl (by decide)

/-- C10: before the dataset has loaded every public operation is a safe
no-op: filterTerms returns the empty list, findTermIdByName returns none
for every name, and navigateToTerm changes no state for every id and
either breadcrumb flag. -/
theorem nullData_safe_noop (s : AppState) (name id : String) (b : Bool)
    (hd : s.data = none) :
    filterTerms s = [] ∧ findTermIdByName s name = none ∧ navigateToTerm s id b = s := by
  refine ⟨?_, ?_, ?_⟩ <;> simp [filterTerms, findTermIdByName, navigateToTerm, hd]

/-- Instance of C10 at a fresh unloaded state. -/
theorem nullData_safe_witness :
    filterTerms (initialState none none) = [] ∧
    findTermIdByName (initialState none none) "API" = none ∧
    navigateToTerm (initialState none none) "api" false = initialState none none :=
  nullData_safe_noop (initialState none none) "API" "api" false rfl

/-- C3 counter-evidence: on a loaded store, renderBreadcrumb maps a
dangling id to the JavaScript undefined (Array.find misses) and the
display-list filter removes only null, so the dangling entry is kept in
the display list instead of being silently omitted. -/
theorem breadcrumb_keeps_dangling_entry :
    breadcrumbTerms danglingState
        = [LookupResult.found apiTerm, LookupResult.undefined] ∧
    LookupResult.undefined ∈ breadcrumbTerms danglingState := by
  constructor <;> decide

/-- indexOf misses exactly when the element is absent. -/
theorem indexOfFirst_eq_none_iff (x : String) : ∀ l : List String,
    indexOfFirst x l = none ↔ x ∉ l := by
  intro l
  induction l with
  | nil => simp [indexOfFirst]
  | cons y ys ih =>
    by_cases hy : y = x
    · subst hy
      simp [indexOfFirst]
    · simp [indexOfFirst, hy, ih, Option.map_eq_none']
      intro h
      exact fun he => hy he.symm

/-- Truncating at an id kept as an exact prefix: if the id is absent the
trail is unchanged; if present, the truncation is a prefix of the trail
that ends at the first occurrence of the id. -/
theorem truncateHistory_spec (h : List String) (id : String) :
    (id ∉ h → truncateHistory h id = h) ∧
    (id ∈ h → ∃ rest, h = truncateHistory h id ++ rest ∧
        (truncateHistory h id).getLast? = some id ∧
        id ∉ (truncateHistory h id).dropLast) := by
  constructor
  · intro hmem
    simp [truncateHistory, (indexOfFirst_eq_none_iff id h).mpr hmem]
  · intro hmem
    induction h with
    | nil => cases hmem
    | cons y ys ih =>
      by_cases hy : y = id
      · subst hy
        refine ⟨ys, ?_, ?_, ?_⟩ <;> simp [truncateHistory, indexOfFirst]
      · have hmem2 : id ∈ ys := by
          rcases List.mem_cons.mp hmem with h1 | h1
          · exact absurd h1.symm hy
          · exact h1
        obtain ⟨j, hj⟩ : ∃ j, indexOfFirst id ys = some j := by
          cases hidx : indexOfFirst id ys with
          | none => exact absurd ((indexOfFirst_eq_none_iff id ys).mp hidx) (not_not.mpr hmem2)
          | some j => exact ⟨j, rfl⟩
        have htr : truncateHistory (y :: ys) id = y :: truncateHistory ys id := by
          simp [truncateHistory, indexOfFirst, hy, hj]
        obtain ⟨rest, hr1, hr2, hr3⟩ := ih hmem2
        have hne : truncateHistory ys id ≠ [] := by
          intro he
          rw [he] at hr2
          cases hr2
        obtain ⟨z, l2, hz⟩ : ∃ z l2, truncateHistory ys id = z :: l2 := by
          cases hcase : truncateHistory ys id with
          | nil => exact absurd hcase hne
          | cons z l2 => exact ⟨z, l2, rfl⟩
        refine ⟨rest, ?_, ?_, ?_⟩
        · rw [htr, List.cons_append, ← hr1]
        · rw [htr, hz]
          rw [hz] at hr2
          cases l2 with
          | nil => simpa using hr2
          | cons w l3 => rw [List.getLast?_cons_cons]; exact hr2
        · rw [htr, hz]
          rw [hz] at hr3
          cases l2 with
          | nil =>
            simp only [List.dropLast_cons₂, List.dropLast_single, List.mem_singleton]
            exact fun he => hy he.symm
          | cons w l3 =>
            rw [List.dropLast_cons₂]
            intro hmem3
            rcases List.mem_cons.mp hmem3 with h1 | h1
            · exact hy h1.symm
            · exact hr3 h1

/-- A resolving term makes find? succeed. -/
theorem find?_id_eq_some (d : GlossaryData) (id : String)
    (hres : ∃ t ∈ d.terms, t.id = id) :
    ∃ t0, d.terms.find? (fun t => decide (t.id = id)) = some t0 := by
  obtain ⟨t, ht, hid⟩ := hres
  have hs : (d.terms.find? (fun t => decide (t.id = id))).isSome := by
    rw [List.find?_isSome]
    exact ⟨t, ht, by simp [hid]⟩
  exact Option.isSome_iff_exists.mp hs

/-- C4: when an id resolving in the store is navigated to via a
breadcrumb click, the new trail is the truncation of the old trail at
the first occurrence of the id: the kept part is a prefix ending at that
first occurrence and everything after it is discarded; an id absent from
the trail leaves the trail entirely unchanged. -/
theorem truncate_first_occurrence (s : AppState) (d : GlossaryData) (id : String)
    (hd : s.data = some d) (hres : ∃ t ∈ d.terms, t.id = id) :
    (navigateToTerm s id true).navigationHistory = truncateHistory s.navigationHistory id ∧
    (id ∉ s.navigationHistory → truncateHistory s.navigationHistory id = s.navigationHistory) ∧
    (id ∈ s.navigationHistory →
      ∃ rest, s.navigationHistory = truncateHistory s.navigationHistory id ++ rest ∧
        (truncateHistory s.navigationHistory id).getLast? = some id ∧
        id ∉ (truncateHistory s.navigationHistory id).dropLast) := by
  obtain ⟨t0, hf⟩ := find?_id_eq_some d id hres
  refine ⟨?_, (truncateHistory_spec s.navigationHistory id).1,
    (truncateHistory_spec s.navigationHistory id).2⟩
  have hstep : (navHistoryStep s id true).navigationHistory
      = truncateHistory s.navigationHistory id := by
    cases hidx : indexOfFirst id s.navigationHistory with
    | some i => simp [navHistoryStep, truncateHistory, saveHistory, hidx]
    | none => simp [navHistoryStep, truncateHistory, hidx]
  simpa [navigateToTerm, hd, hf] using hstep

/-- Instance of C4 at a concrete four-entry trail over the fixture. -/
theorem truncate_first_occurrence_witness :
    (navigateToTerm trailState "rest" true).navigationHistory
        = truncateHistory trailState.navigationHistory "rest" ∧
    ∃ rest, trailState.navigationHistory
        = truncateHistory trailState.navigationHistory "rest" ++ rest ∧
      (truncateHistory trailState.navigationHistory "rest").getLast? = some "rest" ∧
      "rest" ∉ (truncateHistory trailState.navigationHistory "rest").dropLast := by
  have h := truncate_first_occurrence trailState fixture "rest" rfl (by decide)
  exact ⟨h.1, h.2.2 (by decide)⟩

/-- C5: appending the id already at the tail is a no-op on the whole
state; otherwise the id is pushed at the end; the trail always ends in
the id afterwards, and an immediate repetition is the identity. -/
theorem addToHistory_spec (s : AppState) (x : String) :
    (addToHistory s x).navigationHistory.getLast? = some x ∧
    (s.navigationHistory.getLast? = some x → addToHistory s x = s) ∧
    (s.navigationHistory.getLast? ≠ some x →
      (addToHistory s x).navigationHistory = s.navigationHistory ++ [x] ∧
      (addToHistory s x).navigationHistory.length = s.navigationHistory.length + 1) ∧
    addToHistory (addToHistory s x) x = addToHistory s x := by
  by_cases hl : s.navigationHistory.getLast? = some x
  · refine ⟨?_, fun _ => ?_, fun hn => absurd hl hn, ?_⟩ <;> simp [addToHistory, hl]
  · have h1 : addToHistory s x
        = saveHistory { s with navigationHistory := s.navigationHistory ++ [x] } := by
      simp [addToHistory, hl]
    have h2 : (addToHistory s x).navigationHistory.getLast? = some x := by
      rw [h1]
      simp [saveHistory, List.getLast?_concat]
    have hnoop : ∀ u : AppState, u.navigationHistory.getLast? = some x → addToHistory u x = u :=
      fun u hu => by simp [addToHistory, hu]
    refine ⟨h2, fun hc => absurd hc hl, fun _ => ⟨?_, ?_⟩, hnoop _ h2⟩
    · rw [h1]
      simp [saveHistory]
    · rw [h1]
      simp [saveHistory]

/-- Instance of C5: pushing "docker" onto a trail ending in "ci-cd". -/
theorem addToHistory_witness :
    (addToHistory trailState "docker").navigationHistory
        = trailState.navigationHistory ++ ["docker"] ∧
    (addToHistory trailState "docker").navigationHistory.length
        = trailState.navigationHistory.length + 1 :=
  (addToHistory_spec trailState "docker").2.2.1 (by decide)

/-- The history step touches only the trail and the storage. -/
theorem navHistoryStep_fields (s : AppState) (id : String) (b : Bool) :
    (navHistoryStep s id b).data = s.data ∧
    (navHistoryStep s id b).currentCategory = s.currentCategory ∧
    (navHistoryStep s id b).searchQuery = s.searchQuery := by
  cases b with
  | false =>
    by_cases hl : s.navigationHistory.getLast? = some id
    · simp [navHistoryStep, addToHistory, hl]
    · simp [navHistoryStep, addToHistory, hl, saveHistory]
  | true =>
    cases hidx : indexOfFirst id s.navigationHistory with
    | some i => simp [navHistoryStep, hidx, saveHistory]
    | none => simp [navHistoryStep, hidx]

/-- The filter pipeline with the sentinel category and an empty query is
the loaded term list. -/
theorem filterTerms_all_empty (s : AppState) (d : GlossaryData)
    (hd : s.data = some d) (hc : s.currentCategory = "all") (hq : s.searchQuery = "") :
    filterTerms s = d.terms := by
  simp [filterTerms, hd, hc, hq]

/-- C7: after navigating to a term that resolves in the store, from any
prior filter state and for either breadcrumb flag, the search query is
empty, the category is the sentinel "all", and a term with the navigated
id is a member of the recomputed filtered view. -/
theorem navigateToTerm_resets_filters (s : AppState) (d : GlossaryData) (id : String)
    (b : Bool) (hd : s.data = some d) (hres : ∃ t ∈ d.terms, t.id = id) :
    (navigateToTerm s id b).searchQuery = "" ∧
    (navigateToTerm s id b).currentCategory = "all" ∧
    ∃ t ∈ (navigateToTerm s id b).filteredTerms, t.id = id := by
  obtain ⟨t0, hf⟩ := find?_id_eq_some d id hres
  have ht0mem : t0 ∈ d.terms := List.mem_of_find?_eq_some hf
  have ht0id : t0.id = id := by
    have hp := List.find?_some hf
    simpa using hp
  have hdata : (navHistoryStep s id b).data = s.data := (navHistoryStep_fields s id b).1
  have hview : filterTerms
      { navHistoryStep s id b with searchQuery := "", currentCategory := "all" } = d.terms := by
    apply filterTerms_all_empty _ d _ rfl rfl
    show (navHistoryStep s id b).data = some d
    rw [hdata, hd]
  refine ⟨?_, ?_, ?_⟩ <;> simp [navigateToTerm, hd, hf, hview]
  exact ⟨t0, ht0mem, ht0id⟩

/-- Instance of C7: navigating to "rest" from a filtered state. -/
theorem navigateToTerm_resets_witness :
    (navigateToTerm trailState "rest" false).searchQuery = "" ∧
    (navigateToTerm trailState "rest" false).currentCategory = "all" ∧
    ∃ t ∈ (navigateToTerm trailState "rest" false).filteredTerms, t.id = "rest" :=
  navigateToTerm_resets_filters trailState fixture "rest" false rfl (by decide)

/-- Unfolding the adjacent-duplicate test at a cons cell. -/
theorem noAdjDup_cons_iff (a : String) (l : List String) :
    noAdjDup (a :: l) = true ↔ (∀ b, l.head? = some b → a ≠ b) ∧ noAdjDup l = true := by
  cases l with
  | nil => simp [noAdjDup]
  | cons b l2 =>
    simp only [noAdjDup, Bool.and_eq_true, decide_eq_true_eq, List.head?_cons,
      Option.some.injEq]
    constructor
    · rintro ⟨hab, htl⟩
      exact ⟨fun c hc => hc ▸ hab, htl⟩
    · rintro ⟨hhead, htl⟩
      exact ⟨hhead b rfl, htl⟩

/-- A prefix taken from a trail without adjacent duplicates has none. -/
theorem noAdjDup_take (l : List String) : ∀ n : Nat,
    noAdjDup l = true → noAdjDup (l.take n) = true := by
  induction l with
  | nil => intro n _; simp [noAdjDup]
  | cons a tl ih =>
    intro n h
    cases n with
    | zero => simp [noAdjDup]
    | succ m =>
      rw [List.take_succ_cons]
      rcases (noAdjDup_cons_iff a tl).mp h with ⟨hhead, htl⟩
      apply (noAdjDup_cons_iff a (tl.take m)).mpr
      refine ⟨?_, ih m htl⟩
      intro b hb
      apply hhead
      cases tl with
      | nil => simp at hb
      | cons c tl2 =>
        cases m with
        | zero => simp at hb
        | succ k =>
          rw [List.take_succ_cons] at hb
          simp only [List.head?_cons, Option.some.injEq] at hb ⊢
          exact hb

/-- Pushing an id different from the tail keeps the trail free of
adjacent duplicates. -/
theorem noAdjDup_append_single (l : List String) (x : String) :
    noAdjDup l = true → l.getLast? ≠ some x → noAdjDup (l ++ [x]) = true := by
  induction l with
  | nil => intro _ _; simp [noAdjDup]
  | cons a tl ih =>
    intro h hx
    rcases (noAdjDup_cons_iff a tl).mp h with ⟨hhead, htl⟩
    rw [List.cons_append]
    apply (noAdjDup_cons_iff _ _).mpr
    cases tl with
    | nil =>
      refine ⟨?_, by simp [noAdjDup]⟩
      intro b hb
      simp only [List.nil_append, List.head?_cons, Option.some.injEq] at hb
      subst hb
      intro he
      apply hx
      rw [he]
      simp
    | cons c tl2 =>
      have hx2 : (c :: tl2).getLast? ≠ some x := by
        intro hc
        apply hx
        rw [List.getLast?_cons_cons]
        exact hc
      refine ⟨?_, ih htl hx2⟩
      intro b hb
      simp only [List.cons_append, List.head?_cons, Option.some.injEq] at hb
      subst hb
      exact hhead c rfl

/-- Appending preserves the history invariant. -/
theorem histInv_addToHistory (s : AppState) (id : String) (h : HistInv s) :
    HistInv (addToHistory s id) := by
  obtain ⟨h1, h2⟩ := h
  by_cases hl : s.navigationHistory.getLast? = some id
  · simpa [addToHistory, hl] using And.intro h1 h2
  · have hnew : noAdjDup (s.navigationHistory ++ [id]) = true :=
      noAdjDup_append_single _ _ h1 hl
    simp [addToHistory, hl, saveHistory, HistInv]
    exact hnew

/-- The navigation history step preserves the history invariant. -/
theorem histInv_navStep (s : AppState) (id : String) (b : Bool) (h : HistInv s) :
    HistInv (navHistoryStep s id b) := by
  cases b with
  | false => simpa [navHistoryStep] using histInv_addToHistory s id h
  | true =>
    obtain ⟨h1, h2⟩ := h
    cases hidx : indexOfFirst id s.navigationHistory with
    | some i =>
      have htake := noAdjDup_take s.navigationHistory (i + 1) h1
      simp [navHistoryStep, hidx, saveHistory, HistInv]
      exact htake
    | none => simpa [navHistoryStep, hidx, HistInv] using And.intro h1 h2

/-- Navigation preserves the history invariant. -/
theorem histInv_navigate (s : AppState) (id : String) (b : Bool) (h : HistInv s) :
    HistInv (navigateToTerm s id b) := by
  cases hd : s.data with
  | none => simpa [navigateToTerm, hd] using h
  | some d =>
    cases hf : d.terms.find? (fun t => decide (t.id = id)) with
    | none => simpa [navigateToTerm, hd, hf] using h
    | some t0 =>
      have hstep := histInv_navStep s id b h
      simpa [navigateToTerm, hd, hf, HistInv] using hstep

/-- C8: every operation that produces a history state — restore from
persisted storage, append, navigation (including breadcrumb truncation)
and clear — preserves the invariant that neither the trail nor any
persisted trail contains two identical ids in adjacent positions. -/
theorem histInv_preserved (s : AppState) (op : HistOp) (h : HistInv s) :
    HistInv (applyOp s op) := by
  cases op with
  | restore =>
    obtain ⟨h1, h2⟩ := h
    cases hst : s.storage with
    | some l =>
      have hl : noAdjDup l = true := by
        rw [hst] at h2
        simpa using h2
      simp [applyOp, initHistory, hst, HistInv]
      exact hl
    | none =>
      simpa [applyOp, initHistory, hst, HistInv] using h1
  | append id => exact histInv_addToHistory s id h
  | navigate id b => exact histInv_navigate s id b h
  | clear => simp [applyOp, clearHistory, saveHistory, HistInv, noAdjDup]

/-- Instance of C8: one append over a loaded state with a two-entry
trail. -/
theorem histInv_preserved_witness :
    HistInv danglingState ∧ HistInv (applyOp danglingState (HistOp.append "rest")) :=
  ⟨by decide, histInv_preserved danglingState (HistOp.append "rest") (by decide)⟩

/-- One operation preserves the storage-mirrors-trail invariant. -/
theorem persistInv_applyOp (s : AppState) (op : HistOp) (h : PersistInv s) :
    PersistInv (applyOp s op) := by
  have hadd : ∀ id : String, PersistInv (addToHistory s id) := by
    intro id
    by_cases hl : s.navigationHistory.getLast? = some id
    · simpa [addToHistory, hl] using h
    · simp [addToHistory, hl, saveHistory, PersistInv]
  cases op with
  | restore =>
    cases hst : s.storage with
    | some l => simp [applyOp, initHistory, hst, PersistInv, hst]
    | none => simpa [applyOp, initHistory, hst] using h
  | append id => exact hadd id
  | navigate id b =>
    cases hd : s.data with
    | none => simpa [applyOp, navigateToTerm, hd] using h
    | some d =>
      cases hf : d.terms.find? (fun t => decide (t.id = id)) with
      | none => simpa [applyOp, navigateToTerm, hd, hf] using h
      | some t0 =>
        have hstep : PersistInv (navHistoryStep s id b) := by
          cases b with
          | false => simpa [navHistoryStep] using hadd id
          | true =>
            cases hidx : indexOfFirst id s.navigationHistory with
            | some i => simp [navHistoryStep, hidx, saveHistory, PersistInv]
            | none => simpa [navHistoryStep, hidx] using h
        simpa [applyOp, navigateToTerm, hd, hf, PersistInv] using hstep
  | clear => simp [applyOp, clearHistory, saveHistory, PersistInv]

/-- A whole operation sequence preserves the storage-mirrors-trail
invariant. -/
theorem persistInv_applyOps (ops : List HistOp) : ∀ s : AppState,
    PersistInv s → PersistInv (applyOps s ops) := by
  induction ops with
  | nil => intro s h; exact h
  | cons op ops ih => intro s h; exact ih _ (persistInv_applyOp s op h)

/-- C9: after any sequence of operations from a fresh instance with an
empty trail and empty storage, restoring in a new session from the
storage value left behind yields exactly the in-memory trail; in
particular after append(a) and append(b) the storage holds ["a", "b"]
and restoring yields ["a", "b"]. -/
theorem persistence_roundTrip (d : Option GlossaryData) (ops : List HistOp) :
    (initHistory (initialState d
        ((applyOps (initialState d none) ops).storage))).navigationHistory
      = (applyOps (initialState d none) ops).navigationHistory ∧
    (applyOps (initialState none none)
        [HistOp.append "a", HistOp.append "b"]).storage = some ["a", "b"] ∧
    (initHistory (initialState none
        ((applyOps (initialState none none)
          [HistOp.append "a", HistOp.append "b"]).storage))).navigationHistory
      = ["a", "b"] := by
  have hinv : PersistInv (applyOps (initialState d none) ops) :=
    persistInv_applyOps ops _ rfl
  refine ⟨?_, by decide, by decide⟩
  cases hst : (applyOps (initialState d none) ops).storage with
  | some l =>
    have hl : l = (applyOps (initialState d none) ops).navigationHistory := by
      simpa [PersistInv, hst] using hinv
    exact hl
  | none =>
    have hn : (applyOps (initialState d none) ops).navigationHistory = [] := by
      simpa [PersistInv, hst] using hinv
    exact hn.symm

end Glossary
